import Mathlib

/-!
Shallow embedding of the expense tracker (Streamlit + SQLite, `expense_tracker.py`).

The SQLite table `expenses` is modelled as a list of rows together with the
AUTOINCREMENT counter (`next_id`, the sqlite_sequence value plus one).  Dates
are ISO dates, modelled as year/month/day triples compared lexicographically
(SQLite's date() comparison on ISO strings).  REAL amounts are modelled as
rationals.
-/

/-- An ISO calendar date, as stored in the tx_date column. -/
structure Date where
  year : ℕ
  month : ℕ
  day : ℕ
deriving DecidableEq, Repr

/-- Lexicographic key of a date; SQLite compares date() strings this way. -/
def dkey (d : Date) : ℕ ×ₗ ℕ ×ₗ ℕ := toLex (d.year, toLex (d.month, d.day))

/-- One row of the expenses table. -/
structure Record where
  id : ℕ
  tx_date : Date
  category : String
  description : String
  amount : ℚ
  payment_method : String
deriving DecidableEq, Repr

/-- The database: the rows in insertion order plus the AUTOINCREMENT counter. -/
structure Store where
  rows : List Record
  next_id : ℕ
deriving DecidableEq, Repr

/-- init_db: CREATE TABLE IF NOT EXISTS expenses; a fresh file has no rows and
the AUTOINCREMENT sequence starts at id 1. -/
def init_db : Store := ⟨[], 1⟩

/-- add_expense: INSERT a row; AUTOINCREMENT assigns the next id and the
sequence advances. -/
def add_expense (s : Store) (tx_date : Date) (category description : String)
    (amount : ℚ) (payment_method : String) : Store :=
  ⟨s.rows ++ [⟨s.next_id, tx_date, category, description, amount, payment_method⟩],
   s.next_id + 1⟩

/-- The WHERE clause of fetch_expenses: each filter is appended only when the
Python argument is truthy, and a category filter only when it is not the
sentinel "All". -/
def matchesFilter (start_date end_date : Option Date) (category : Option String)
    (r : Record) : Bool :=
  (match start_date with
   | none => true
   | some a => decide (dkey a ≤ dkey r.tx_date)) &&
  (match end_date with
   | none => true
   | some b => decide (dkey r.tx_date ≤ dkey b)) &&
  (match category with
   | none => true
   | some c => if c = "" || c = "All" then true else decide (r.category = c))

/-- Sort key of the ORDER BY clause: date(tx_date) DESC, id DESC. -/
def recKey (r : Record) : (ℕ ×ₗ ℕ ×ₗ ℕ) ×ₗ ℕ := toLex (dkey r.tx_date, r.id)

/-- a may be emitted before b under ORDER BY date(tx_date) DESC, id DESC. -/
def recOrd (a b : Record) : Prop := recKey b ≤ recKey a

instance : DecidableRel recOrd := fun a b =>
  inferInstanceAs (Decidable (recKey b ≤ recKey a))

instance : IsTotal Record recOrd := ⟨fun a b => le_total (recKey b) (recKey a)⟩

instance : IsTrans Record recOrd := ⟨fun _ _ _ h1 h2 => le_trans h2 h1⟩

/-- fetch_expenses: SELECT with the optional filters, ORDER BY
date(tx_date) DESC, id DESC. -/
def fetch_expenses (s : Store) (start_date end_date : Option Date)
    (category : Option String) : List Record :=
  List.insertionSort recOrd (s.rows.filter (matchesFilter start_date end_date category))

/-- delete_expense: DELETE FROM expenses WHERE id = ?. -/
def delete_expense (s : Store) (expense_id : ℕ) : Store :=
  ⟨s.rows.filter (fun r => decide (r.id ≠ expense_id)), s.next_id⟩

/-- update_expense: UPDATE all mutable columns WHERE id = ?; the id column is
not in the SET list. -/
def update_expense (s : Store) (expense_id : ℕ) (tx_date : Date)
    (category description : String) (amount : ℚ) (payment_method : String) : Store :=
  ⟨s.rows.map (fun r =>
     if r.id = expense_id then
       ⟨r.id, tx_date, category, description, amount, payment_method⟩
     else r),
   s.next_id⟩

/-- Store invariant maintained by the operations: every row id was assigned
below the AUTOINCREMENT counter, and ids are unique (PRIMARY KEY). -/
def StoreInv (s : Store) : Prop :=
  (∀ r ∈ s.rows, r.id < s.next_id) ∧ (s.rows.map (fun r => r.id)).Nodup

/-- Arguments of one create call, for replaying a sequence of creates. -/
structure CreateArgs where
  tx_date : Date
  category : String
  description : String
  amount : ℚ
  payment_method : String
deriving DecidableEq, Repr

/-- Replay a sequence of add_expense calls against a store. -/
def applyCreates (s : Store) : List CreateArgs → Store
  | [] => s
  | a :: rest =>
    applyCreates
      (add_expense s a.tx_date a.category a.description a.amount a.payment_method) rest

/-- Rows with records in 2024-01 and 2024-03 but none in 2024-02. -/
def c1recs : List Record :=
  [⟨1, ⟨2024, 1, 5⟩, "Food", "", 100, "Cash"⟩,
   ⟨2, ⟨2024, 3, 1⟩, "Food", "", 25, "Cash"⟩]

/-- The spec's scenario store: three records over 2024-01 and 2024-02. -/
def exStore : Store :=
  ⟨[⟨1, ⟨2024, 1, 5⟩, "Food", "", 100, "Cash"⟩,
    ⟨2, ⟨2024, 1, 20⟩, "Transport", "", 50, "UPI"⟩,
    ⟨3, ⟨2024, 2, 1⟩, "Food", "", 25, "Card"⟩], 4⟩

-- Aggregation layer (pandas expressions over the fetched frame)

/-- total_spend: df['amount'].sum(). -/
def total_spend (rs : List Record) : ℚ := (rs.map (fun r => r.amount)).sum

/-- Sum of amount over the rows of one category (one groupby('category') group). -/
def catTotal (rs : List Record) (c : String) : ℚ :=
  total_spend (rs.filter (fun r => decide (r.category = c)))

/-- Descending-by-amount order used by sort_values('amount', ascending=False). -/
def catOrd (p q : String × ℚ) : Prop := q.2 ≤ p.2

instance : DecidableRel catOrd := fun p q => inferInstanceAs (Decidable (q.2 ≤ p.2))

instance : IsTotal (String × ℚ) catOrd := ⟨fun p q => le_total q.2 p.2⟩

instance : IsTrans (String × ℚ) catOrd := ⟨fun _ _ _ h1 h2 => le_trans h2 h1⟩

/-- by_category: groupby('category') (group keys ascending), sum amount per
group, then sort_values('amount', ascending=False). -/
def by_category (rs : List Record) : List (String × ℚ) :=
  List.insertionSort catOrd
    ((List.insertionSort (fun a b => a ≤ b) (rs.map (fun r => r.category)).dedup).map
      (fun c => (c, catTotal rs c)))

/-- Linear index of the calendar month containing a date. -/
def monthIdx (d : Date) : ℕ := d.year * 12 + (d.month - 1)

/-- First day of the month with the given linear index (the 'MS' bucket label). -/
def monthStart (m : ℕ) : Date := ⟨m / 12, m % 12 + 1, 1⟩

/-- Sum of amount over the rows falling in one calendar-month bucket. -/
def monthTotal (rs : List Record) (m : ℕ) : ℚ :=
  total_spend (rs.filter (fun r => decide (monthIdx r.tx_date = m)))

/-- Smallest month index among the rows (first resample bin edge). -/
def minMonth (rs : List Record) : ℕ :=
  match rs with
  | [] => 0
  | r :: rest => rest.foldl (fun a x => min a (monthIdx x.tx_date)) (monthIdx r.tx_date)

/-- Largest month index among the rows (last resample bin edge). -/
def maxMonth (rs : List Record) : ℕ :=
  match rs with
  | [] => 0
  | r :: rest => rest.foldl (fun a x => max a (monthIdx x.tx_date)) (monthIdx r.tx_date)

/-- by_month: df.set_index('tx_date').resample('MS')['amount'].sum(), i.e. one
bucket for every calendar month from the earliest row's month through the
latest row's month, each labelled by its month start; months without rows get
an empty-bin sum of 0. -/
def by_month (rs : List Record) : List (Date × ℚ) :=
  match rs with
  | [] => []
  | _ :: _ =>
    (List.range' (minMonth rs) (maxMonth rs - minMonth rs + 1)).map
      (fun m => (monthStart m, monthTotal rs m))

-- Presentation layer: the add-expense form submit handler

/-- Category choices offered by the category selectbox. -/
def CATEGORIES : List String :=
  ["Food", "Transport", "Rent", "Utilities", "Shopping", "Health", "Education",
   "Entertainment", "Other"]

/-- Payment-method choices offered by the payment-method selectbox. -/
def PAYMENT_METHODS : List String := ["Cash", "UPI", "Card", "NetBanking", "Other"]

/-- Submit branch of the add-expense form: when amount <= 0 show a warning
(first component true) and do not touch the store; otherwise call add_expense
with the stripped description.  Returns (warning shown, resulting store). -/
def add_expense_form_submit (s : Store) (tx_date : Date)
    (category description : String) (amount : ℚ) (payment_method : String) :
    Bool × Store :=
  if amount ≤ 0 then (true, s)
  else (false, add_expense s tx_date category description.trim amount payment_method)

-- Basic lemmas about fetch_expenses

theorem mem_fetch_iff (s : Store) (sd ed : Option Date) (c : Option String) (r : Record) :
    r ∈ fetch_expenses s sd ed c ↔ r ∈ s.rows ∧ matchesFilter sd ed c r = true := by
  simp [fetch_expenses, List.mem_filter]

theorem fetch_perm_filter (s : Store) (sd ed : Option Date) (c : Option String) :
    List.Perm (fetch_expenses s sd ed c) (s.rows.filter (matchesFilter sd ed c)) :=
  List.perm_insertionSort recOrd _

theorem matchesFilter_none_none_none (r : Record) :
    matchesFilter none none none r = true := by
  simp [matchesFilter]

theorem fetch_all_perm (s : Store) : List.Perm (fetch_expenses s none none none) s.rows := by
  have h : s.rows.filter (matchesFilter none none none) = s.rows :=
    List.filter_eq_self.mpr (fun r _ => matchesFilter_none_none_none r)
  simpa [h] using fetch_perm_filter s none none none

-- General helper lemmas

theorem map_congr_mem {α β : Type} (l : List α) (f g : α → β)
    (h : ∀ a ∈ l, f a = g a) : l.map f = l.map g := by
  induction l with
  | nil => rfl
  | cons a tl ih => simp [h a (by simp), ih (fun x hx => h x (by simp [hx]))]

theorem map_eq_self {α : Type} (l : List α) (f : α → α)
    (h : ∀ a ∈ l, f a = a) : l.map f = l := by
  rw [map_congr_mem l f (fun a => a) h]
  exact List.map_id l

theorem sum_map_zero (l : List String) : (l.map (fun _ => (0 : ℚ))).sum = 0 := by
  induction l with
  | nil => simp
  | cons a tl ih => simp [ih]

theorem sum_map_add_distrib (l : List String) (f g : String → ℚ) :
    (l.map (fun c => f c + g c)).sum = (l.map f).sum + (l.map g).sum := by
  induction l with
  | nil => simp
  | cons a tl ih => simp [ih]; ring

theorem sum_map_indicator_zero (l : List String) (a : String) (x : ℚ) (h : a ∉ l) :
    (l.map (fun c => if a = c then x else 0)).sum = 0 := by
  induction l with
  | nil => simp
  | cons b tl ih =>
    simp only [List.mem_cons, not_or] at h
    simp [h.1, ih h.2]

theorem sum_map_indicator (l : List String) (hl : l.Nodup) (a : String) (x : ℚ)
    (ha : a ∈ l) : (l.map (fun c => if a = c then x else 0)).sum = x := by
  induction l with
  | nil => simp at ha
  | cons b tl ih =>
    rcases List.mem_cons.mp ha with rfl | hmem
    · simp [sum_map_indicator_zero tl a x (List.nodup_cons.mp hl).1]
    · have hne : a ≠ b := by
        rintro rfl
        exact (List.nodup_cons.mp hl).1 hmem
      simp [hne, ih (List.nodup_cons.mp hl).2 hmem]

theorem dkey_inj {a b : Date} (h : dkey a = dkey b) : a = b := by
  cases a; cases b
  simp only [dkey, toLex_inj, Prod.mk.injEq] at h
  simp_all

theorem sum_map_amount_foldr (rs : List Record) :
    (rs.map (fun r => r.amount)).sum = rs.foldr (fun r a => r.amount + a) 0 := by
  induction rs with
  | nil => rfl
  | cons r tl ih => simp [ih]

theorem recOrd_imp (a b : Record) (h : recOrd a b) :
    dkey b.tx_date < dkey a.tx_date ∨ (b.tx_date = a.tx_date ∧ b.id ≤ a.id) := by
  have h' := (Prod.Lex.le_iff (dkey b.tx_date, b.id) (dkey a.tx_date, a.id)).mp h
  rcases h' with h' | ⟨he, hid⟩
  · exact Or.inl h'
  · exact Or.inr ⟨dkey_inj he, hid⟩

/-- C5: list with date range [A, B] returns exactly the stored records whose
tx_date lies within the bounds, both ends inclusive; an omitted bound imposes
no constraint at all, and with both bounds omitted every stored record is
returned. -/
theorem C5_fetch_date_range (s : Store) (A B : Date) (r : Record) :
    (r ∈ fetch_expenses s (some A) (some B) none ↔
      r ∈ s.rows ∧ dkey A ≤ dkey r.tx_date ∧ dkey r.tx_date ≤ dkey B)
    ∧ (r ∈ fetch_expenses s (some A) none none ↔
      r ∈ s.rows ∧ dkey A ≤ dkey r.tx_date)
    ∧ (r ∈ fetch_expenses s none (some B) none ↔
      r ∈ s.rows ∧ dkey r.tx_date ≤ dkey B)
    ∧ (r ∈ fetch_expenses s none none none ↔ r ∈ s.rows) := by
  refine ⟨?_, ?_, ?_, ?_⟩ <;> simp [mem_fetch_iff, matchesFilter, and_assoc]

/-- C6: for every filter combination the returned sequence is ordered
descending by date then descending by id, and when nothing matches the result
is the empty sequence. -/
theorem C6_fetch_order_and_empty (s : Store) (sd ed : Option Date) (c : Option String) :
    List.Pairwise (fun a b : Record =>
        dkey b.tx_date < dkey a.tx_date ∨ (b.tx_date = a.tx_date ∧ b.id ≤ a.id))
      (fetch_expenses s sd ed c)
    ∧ ((∀ r ∈ s.rows, matchesFilter sd ed c r = false) →
        fetch_expenses s sd ed c = []) := by
  constructor
  · exact (List.sorted_insertionSort recOrd _).imp (fun h => recOrd_imp _ _ h)
  · intro h
    have hf : s.rows.filter (matchesFilter sd ed c) = [] := by
      rw [List.filter_eq_nil_iff]
      intro r hr
      simp [h r hr]
    simp [fetch_expenses, hf, List.insertionSort]

theorem C6_witness :
    fetch_expenses exStore (some ⟨2025, 1, 1⟩) none none = [] :=
  (C6_fetch_order_and_empty exStore (some ⟨2025, 1, 1⟩) none none).2 (by decide)

/-- C7: total over the sequence returned by list equals the arithmetic sum of
amount over exactly that sequence, and is 0 on the empty sequence. -/
theorem C7_total_spend_fetch (s : Store) (sd ed : Option Date) (c : Option String) :
    total_spend (fetch_expenses s sd ed c)
      = (fetch_expenses s sd ed c).foldr (fun r a => r.amount + a) 0
    ∧ (fetch_expenses s sd ed c = [] → total_spend (fetch_expenses s sd ed c) = 0) := by
  constructor
  · exact sum_map_amount_foldr _
  · intro h
    simp [h, total_spend]

theorem C7_witness : total_spend (fetch_expenses init_db none none none) = 0 :=
  (C7_total_spend_fetch init_db none none none).2 (by decide)

/-- C9: a submitted add-expense form with amount at most 0 shows a warning,
leaves the store untouched, and every subsequent list is unchanged. -/
theorem C9_reject_nonpositive (s : Store) (d : Date) (c desc : String) (amt : ℚ)
    (pm : String) (h : amt ≤ 0) :
    (add_expense_form_submit s d c desc amt pm).1 = true
    ∧ (add_expense_form_submit s d c desc amt pm).2 = s
    ∧ ∀ (sd ed : Option Date) (cf : Option String),
        fetch_expenses (add_expense_form_submit s d c desc amt pm).2 sd ed cf
          = fetch_expenses s sd ed cf := by
  simp [add_expense_form_submit, h]

theorem C9_witness :
    (add_expense_form_submit exStore ⟨2024, 3, 1⟩ "Food" "" 0 "Cash").2 = exStore :=
  (C9_reject_nonpositive exStore ⟨2024, 3, 1⟩ "Food" "" 0 "Cash" (by norm_num)).2.1

/-- C10: delete and update touch at most the row with the given id; every row
with a different id is present unchanged afterwards, and every surviving row
with a different id was already present. -/
theorem C10_frame (s : Store) (i : ℕ) (d : Date) (c desc : String) (amt : ℚ)
    (pm : String) (r : Record) :
    (r ∈ s.rows → r.id ≠ i → r ∈ (delete_expense s i).rows)
    ∧ (r ∈ s.rows → r.id ≠ i → r ∈ (update_expense s i d c desc amt pm).rows)
    ∧ (r ∈ (delete_expense s i).rows → r ∈ s.rows)
    ∧ (r ∈ (update_expense s i d c desc amt pm).rows → r.id ≠ i → r ∈ s.rows) := by
  refine ⟨?_, ?_, ?_, ?_⟩
  · intro hr hne
    simp [delete_expense, List.mem_filter, hr, hne]
  · intro hr hne
    simp only [update_expense, List.mem_map]
    exact ⟨r, hr, by simp [hne]⟩
  · intro hr
    exact (List.mem_filter.mp hr).1
  · intro hr hne
    simp only [update_expense, List.mem_map] at hr
    obtain ⟨x, hx, hfx⟩ := hr
    by_cases hxi : x.id = i
    · exfalso
      apply hne
      rw [← hfx]
      simp [hxi]
    · rw [← hfx]
      simpa [hxi] using hx

theorem C10_witness :
    (⟨1, ⟨2024, 1, 5⟩, "Food", "", 100, "Cash"⟩ : Record) ∈ (delete_expense exStore 2).rows :=
  (C10_frame exStore 2 ⟨2024, 1, 1⟩ "Food" "" 1 "Cash" _).1 (by decide) (by decide)

/-- C2: a create with valid inputs followed by an unfiltered list yields one
record more than before; the new record carries exactly the given fields under
a freshly assigned id that no current row carries, and the store invariant
(ids unique and below the autoincrement counter) is preserved, so the id also
differs from every id the store ever assigned. -/
theorem C2_create_then_list (s : Store) (hInv : StoreInv s) (d : Date)
    (c desc : String) (amt : ℚ) (pm : String) (hamt : 0 < amt)
    (hc : c ∈ CATEGORIES) (hpm : pm ∈ PAYMENT_METHODS) :
    (fetch_expenses (add_expense s d c desc amt pm) none none none).length
      = (fetch_expenses s none none none).length + 1
    ∧ (⟨s.next_id, d, c, desc, amt, pm⟩ : Record)
        ∈ fetch_expenses (add_expense s d c desc amt pm) none none none
    ∧ s.next_id ∉ (fetch_expenses s none none none).map (fun r => r.id)
    ∧ (fetch_expenses (add_expense s d c desc amt pm) none none none).filter
        (fun r => decide (r.id = s.next_id)) = [⟨s.next_id, d, c, desc, amt, pm⟩]
    ∧ StoreInv (add_expense s d c desc amt pm) := by
  have hperm := fetch_all_perm (add_expense s d c desc amt pm)
  have hperm0 := fetch_all_perm s
  have hfresh : ∀ r ∈ s.rows, r.id ≠ s.next_id := by
    intro r hr
    exact Nat.ne_of_lt (hInv.1 r hr)
  refine ⟨?_, ?_, ?_, ?_, ?_⟩
  · rw [hperm.length_eq, hperm0.length_eq]
    simp [add_expense]
  · apply hperm.mem_iff.mpr
    simp [add_expense]
  · intro hmem
    have : s.next_id ∈ s.rows.map (fun r => r.id) := (hperm0.map (fun r => r.id)).mem_iff.mp hmem
    obtain ⟨r, hr, hid⟩ := List.mem_map.mp this
    exact hfresh r hr hid
  · have h1 : List.Perm
        ((fetch_expenses (add_expense s d c desc amt pm) none none none).filter
          (fun r => decide (r.id = s.next_id)))
        ((add_expense s d c desc amt pm).rows.filter (fun r => decide (r.id = s.next_id))) :=
      hperm.filter _
    have h2 : (add_expense s d c desc amt pm).rows.filter (fun r => decide (r.id = s.next_id))
        = [⟨s.next_id, d, c, desc, amt, pm⟩] := by
      simp only [add_expense, List.filter_append]
      have hl : s.rows.filter (fun r => decide (r.id = s.next_id)) = [] := by
        rw [List.filter_eq_nil_iff]
        intro r hr
        simpa using hfresh r hr
      rw [hl]
      simp
    exact List.perm_singleton.mp (h2 ▸ h1)
  · constructor
    · intro r hr
      simp only [add_expense, List.mem_append, List.mem_singleton] at hr
      rcases hr with hr | rfl
      · exact Nat.lt_succ_of_lt (hInv.1 r hr)
      · exact Nat.lt_succ_self _
    · simp only [add_expense, List.map_append, List.map_cons, List.map_nil]
      rw [List.nodup_append]
      refine ⟨hInv.2, List.nodup_singleton _, ?_⟩
      intro a ha hb
      simp only [List.mem_singleton] at hb
      subst hb
      obtain ⟨r, hr, hid⟩ := List.mem_map.mp ha
      exact hfresh r hr hid

theorem C2_witness :
    (fetch_expenses (add_expense init_db ⟨2024, 1, 5⟩ "Food" "" 100 "Cash") none none none).length
      = (fetch_expenses init_db none none none).length + 1 :=
  (C2_create_then_list init_db (by constructor <;> simp [init_db]) ⟨2024, 1, 5⟩ "Food" ""
    100 "Cash" (by norm_num) (by decide) (by decide)).1

theorem applyCreates_no_id (j : ℕ) :
    ∀ (ops : List CreateArgs) (s : Store), j < s.next_id → (∀ r ∈ s.rows, r.id ≠ j) →
      ∀ r ∈ (applyCreates s ops).rows, r.id ≠ j := by
  intro ops
  induction ops with
  | nil =>
    intro s _ h r hr
    exact h r hr
  | cons a rest ih =>
    intro s hlt h
    apply ih
    · simp only [add_expense]
      omega
    · intro r hr
      simp only [add_expense, List.mem_append, List.mem_singleton] at hr
      rcases hr with hr | rfl
      · exact h r hr
      · simpa using Nat.ne_of_gt hlt

/-- C3: deleting an id that is present removes it for good: no later list, with
any filters and after any further sequence of creates, contains it again; and
deleting an id that is absent is accepted and leaves every list unchanged. -/
theorem C3_delete_permanent (s : Store) (hInv : StoreInv s) (i : ℕ)
    (hpresent : ∃ r ∈ s.rows, r.id = i) :
    (∀ (ops : List CreateArgs) (sd ed : Option Date) (c : Option String),
       ∀ r ∈ fetch_expenses (applyCreates (delete_expense s i) ops) sd ed c, r.id ≠ i)
    ∧ ∀ j : ℕ, (∀ x ∈ s.rows, x.id ≠ j) →
        ∀ (sd ed : Option Date) (c : Option String),
          fetch_expenses (delete_expense s j) sd ed c = fetch_expenses s sd ed c := by
  constructor
  · intro ops sd ed c r hr
    have hi : i < s.next_id := by
      obtain ⟨x, hx, hxi⟩ := hpresent
      exact hxi ▸ hInv.1 x hx
    have hdel : ∀ x ∈ (delete_expense s i).rows, x.id ≠ i := by
      intro x hx
      simpa using (List.mem_filter.mp hx).2
    have hmem : r ∈ (applyCreates (delete_expense s i) ops).rows :=
      ((mem_fetch_iff _ _ _ _ _).mp hr).1
    exact applyCreates_no_id i ops (delete_expense s i) hi hdel r hmem
  · intro j hj sd ed c
    have hrows : (delete_expense s j).rows = s.rows := by
      apply List.filter_eq_self.mpr
      intro x hx
      simpa using hj x hx
    unfold fetch_expenses
    rw [hrows]

theorem C3_witness :
    fetch_expenses (delete_expense exStore 9) none none none
      = fetch_expenses exStore none none none :=
  (C3_delete_permanent exStore (by constructor <;> decide) 1 (by decide)).2 9 (by decide)
    none none none

/-- C4: updating a present record replaces all five mutable fields and keeps
its id, and the updated record shows up in a subsequent unfiltered list;
updating an absent id leaves the store exactly as it was, raising no error. -/
theorem C4_update_then_list (s : Store) (r : Record) (hr : r ∈ s.rows) (d : Date)
    (c desc : String) (amt : ℚ) (pm : String) :
    (⟨r.id, d, c, desc, amt, pm⟩ : Record)
        ∈ fetch_expenses (update_expense s r.id d c desc amt pm) none none none
    ∧ ∀ j : ℕ, (∀ x ∈ s.rows, x.id ≠ j) → update_expense s j d c desc amt pm = s := by
  constructor
  · apply (fetch_all_perm _).mem_iff.mpr
    simp only [update_expense, List.mem_map]
    exact ⟨r, hr, by simp⟩
  · intro j hj
    have hrows : s.rows.map (fun x =>
        if x.id = j then (⟨x.id, d, c, desc, amt, pm⟩ : Record) else x) = s.rows := by
      apply map_eq_self
      intro x hx
      simp [hj x hx]
    cases s with
    | mk rows nid =>
      simp only [update_expense] at hrows ⊢
      rw [hrows]

theorem C4_witness :
    (⟨2, ⟨2024, 2, 15⟩, "Rent", "feb", 75, "Card"⟩ : Record)
      ∈ fetch_expenses (update_expense exStore 2 ⟨2024, 2, 15⟩ "Rent" "feb" 75 "Card")
          none none none :=
  (C4_update_then_list exStore ⟨2, ⟨2024, 1, 20⟩, "Transport", "", 50, "UPI"⟩ (by decide)
    ⟨2024, 2, 15⟩ "Rent" "feb" 75 "Card").1

theorem catTotal_cons (r : Record) (tl : List Record) (c : String) :
    catTotal (r :: tl) c = (if r.category = c then r.amount else 0) + catTotal tl c := by
  by_cases h : r.category = c <;> simp [catTotal, total_spend, h]

theorem sum_catTotal (rs : List Record) (cats : List String) (hnd : cats.Nodup)
    (hcov : ∀ r ∈ rs, r.category ∈ cats) :
    (cats.map (catTotal rs)).sum = total_spend rs := by
  induction rs with
  | nil =>
    have h0 : cats.map (catTotal []) = cats.map (fun _ => (0 : ℚ)) :=
      map_congr_mem _ _ _ (fun c _ => rfl)
    rw [h0, sum_map_zero]
    rfl
  | cons r tl ih =>
    have hcov' : ∀ x ∈ tl, x.category ∈ cats := fun x hx => hcov x (by simp [hx])
    have h1 : cats.map (catTotal (r :: tl)) =
        cats.map (fun c => (if r.category = c then r.amount else 0) + catTotal tl c) :=
      map_congr_mem _ _ _ (fun c _ => catTotal_cons r tl c)
    rw [h1, sum_map_add_distrib,
      sum_map_indicator cats hnd r.category r.amount (hcov r (by simp)), ih hcov']
    simp [total_spend]

theorem by_category_perm_pairs (rs : List Record) :
    List.Perm (by_category rs)
      ((List.insertionSort (fun a b => a ≤ b) (rs.map (fun r => r.category)).dedup).map
        (fun c => (c, catTotal rs c))) :=
  List.perm_insertionSort catOrd _

theorem by_category_keys_perm (rs : List Record) :
    List.Perm ((by_category rs).map Prod.fst) (rs.map (fun r => r.category)).dedup := by
  have h := (by_category_perm_pairs rs).map Prod.fst
  rw [List.map_map] at h
  have h2 : ((List.insertionSort (fun a b => a ≤ b) (rs.map (fun r => r.category)).dedup).map
      (Prod.fst ∘ fun c => (c, catTotal rs c)))
      = List.insertionSort (fun a b => a ≤ b) (rs.map (fun r => r.category)).dedup :=
    map_eq_self _ _ (fun a _ => rfl)
  rw [h2] at h
  exact h.trans (List.perm_insertionSort _ _)

theorem by_category_snd_sum (rs : List Record) :
    ((by_category rs).map Prod.snd).sum = total_spend rs := by
  have h := ((by_category_perm_pairs rs).map Prod.snd).sum_eq
  rw [List.map_map] at h
  have h2 : ((List.insertionSort (fun a b => a ≤ b) (rs.map (fun r => r.category)).dedup).map
      (Prod.snd ∘ fun c => (c, catTotal rs c)))
      = (List.insertionSort (fun a b => a ≤ b) (rs.map (fun r => r.category)).dedup).map
          (catTotal rs) :=
    map_congr_mem _ _ _ (fun a _ => rfl)
  rw [h2] at h
  rw [h, ((List.perm_insertionSort (fun a b => a ≤ b)
      (rs.map (fun r => r.category)).dedup).map (catTotal rs)).sum_eq]
  exact sum_catTotal rs _ (List.nodup_dedup _)
    (fun r hr => List.mem_dedup.mpr (List.mem_map_of_mem _ hr))

/-- C8: by_category yields one pair per distinct category present (no more, no
fewer), each total the sum of amount over that category's records, ordered
descending by total, and the per-category totals sum to the total of the whole
record set. -/
theorem C8_by_category_spec (rs : List Record) :
    ((by_category rs).map Prod.fst).Nodup
    ∧ (∀ c : String, c ∈ (by_category rs).map Prod.fst ↔ c ∈ rs.map (fun r => r.category))
    ∧ (∀ p ∈ by_category rs, p.2 = catTotal rs p.1)
    ∧ List.Pairwise (fun p q : String × ℚ => q.2 ≤ p.2) (by_category rs)
    ∧ ((by_category rs).map Prod.snd).sum = total_spend rs := by
  refine ⟨?_, ?_, ?_, ?_, by_category_snd_sum rs⟩
  · exact (by_category_keys_perm rs).nodup_iff.mpr (List.nodup_dedup _)
  · intro c
    rw [(by_category_keys_perm rs).mem_iff, List.mem_dedup]
  · intro p hp
    have hmem := (by_category_perm_pairs rs).mem_iff.mp hp
    obtain ⟨c, _, rfl⟩ := List.mem_map.mp hmem
    rfl
  · exact (List.sorted_insertionSort catOrd _).imp (fun h => h)

theorem C8_witness :
    ((by_category exStore.rows).map Prod.snd).sum = total_spend exStore.rows :=
  (C8_by_category_spec exStore.rows).2.2.2.2

theorem monthIdx_monthStart (m : ℕ) : monthIdx (monthStart m) = m := by
  simp only [monthIdx, monthStart]
  omega

theorem foldl_min_le_init (l : List Record) :
    ∀ a : ℕ, l.foldl (fun b x => min b (monthIdx x.tx_date)) a ≤ a := by
  induction l with
  | nil => intro a; simp
  | cons x tl ih =>
    intro a
    simp only [List.foldl_cons]
    exact le_trans (ih _) (min_le_left _ _)

theorem foldl_min_le_mem (l : List Record) :
    ∀ (a : ℕ), ∀ r ∈ l,
      l.foldl (fun b x => min b (monthIdx x.tx_date)) a ≤ monthIdx r.tx_date := by
  induction l with
  | nil => intro a r hr; simp at hr
  | cons x tl ih =>
    intro a r hr
    simp only [List.foldl_cons]
    rcases List.mem_cons.mp hr with rfl | hmem
    · exact le_trans (foldl_min_le_init tl _) (min_le_right _ _)
    · exact ih _ r hmem

theorem minMonth_le (rs : List Record) (r : Record) (hr : r ∈ rs) :
    minMonth rs ≤ monthIdx r.tx_date := by
  cases rs with
  | nil => simp at hr
  | cons x tl =>
    simp only [minMonth]
    rcases List.mem_cons.mp hr with rfl | hmem
    · exact foldl_min_le_init tl _
    · exact foldl_min_le_mem tl _ r hmem

theorem foldl_min_attained (l : List Record) :
    ∀ a : ℕ, l.foldl (fun b x => min b (monthIdx x.tx_date)) a = a
      ∨ ∃ r ∈ l, l.foldl (fun b x => min b (monthIdx x.tx_date)) a = monthIdx r.tx_date := by
  induction l with
  | nil => intro a; exact Or.inl rfl
  | cons x tl ih =>
    intro a
    simp only [List.foldl_cons]
    rcases ih (min a (monthIdx x.tx_date)) with h | ⟨r, hr, h⟩
    · rcases min_cases a (monthIdx x.tx_date) with ⟨hm, _⟩ | ⟨hm, _⟩
      · left
        rw [h, hm]
      · right
        exact ⟨x, by simp, by rw [h, hm]⟩
    · right
      exact ⟨r, by simp [hr], h⟩

theorem minMonth_attained (rs : List Record) (h : rs ≠ []) :
    ∃ r ∈ rs, monthIdx r.tx_date = minMonth rs := by
  obtain ⟨x, tl, rfl⟩ := List.exists_cons_of_ne_nil h
  simp only [minMonth]
  rcases foldl_min_attained tl (monthIdx x.tx_date) with h1 | ⟨r, hr, h1⟩
  · exact ⟨x, by simp, h1.symm⟩
  · exact ⟨r, by simp [hr], h1.symm⟩

theorem foldl_max_init_le (l : List Record) :
    ∀ a : ℕ, a ≤ l.foldl (fun b x => max b (monthIdx x.tx_date)) a := by
  induction l with
  | nil => intro a; simp
  | cons x tl ih =>
    intro a
    simp only [List.foldl_cons]
    exact le_trans (le_max_left _ _) (ih _)

theorem foldl_max_mem_le (l : List Record) :
    ∀ (a : ℕ), ∀ r ∈ l,
      monthIdx r.tx_date ≤ l.foldl (fun b x => max b (monthIdx x.tx_date)) a := by
  induction l with
  | nil => intro a r hr; simp at hr
  | cons x tl ih =>
    intro a r hr
    simp only [List.foldl_cons]
    rcases List.mem_cons.mp hr with rfl | hmem
    · exact le_trans (le_max_right _ _) (foldl_max_init_le tl _)
    · exact ih _ r hmem

theorem le_maxMonth (rs : List Record) (r : Record) (hr : r ∈ rs) :
    monthIdx r.tx_date ≤ maxMonth rs := by
  cases rs with
  | nil => simp at hr
  | cons x tl =>
    simp only [maxMonth]
    rcases List.mem_cons.mp hr with rfl | hmem
    · exact foldl_max_init_le tl _
    · exact foldl_max_mem_le tl _ r hmem

theorem foldl_max_attained (l : List Record) :
    ∀ a : ℕ, l.foldl (fun b x => max b (monthIdx x.tx_date)) a = a
      ∨ ∃ r ∈ l, l.foldl (fun b x => max b (monthIdx x.tx_date)) a = monthIdx r.tx_date := by
  induction l with
  | nil => intro a; exact Or.inl rfl
  | cons x tl ih =>
    intro a
    simp only [List.foldl_cons]
    rcases ih (max a (monthIdx x.tx_date)) with h | ⟨r, hr, h⟩
    · rcases max_cases a (monthIdx x.tx_date) with ⟨hm, _⟩ | ⟨hm, _⟩
      · left
        rw [h, hm]
      · right
        exact ⟨x, by simp, by rw [h, hm]⟩
    · right
      exact ⟨r, by simp [hr], h⟩

theorem maxMonth_attained (rs : List Record) (h : rs ≠ []) :
    ∃ r ∈ rs, monthIdx r.tx_date = maxMonth rs := by
  obtain ⟨x, tl, rfl⟩ := List.exists_cons_of_ne_nil h
  simp only [maxMonth]
  rcases foldl_max_attained tl (monthIdx x.tx_date) with h1 | ⟨r, hr, h1⟩
  · exact ⟨x, by simp, h1.symm⟩
  · exact ⟨r, by simp [hr], h1.symm⟩

theorem chain'_range' : ∀ (n s : ℕ), List.Chain' (fun a b => b = a + 1) (List.range' s n) := by
  intro n
  induction n with
  | zero => intro s; simp
  | succ k ih =>
    intro s
    rw [List.range'_succ]
    cases k with
    | zero => simp
    | succ k2 =>
      rw [List.range'_succ]
      refine List.chain'_cons.mpr ⟨by omega, ?_⟩
      rw [← List.range'_succ]
      exact ih (s + 1)

theorem by_month_eq (rs : List Record) (h : rs ≠ []) :
    by_month rs = (List.range' (minMonth rs) (maxMonth rs - minMonth rs + 1)).map
      (fun m => (monthStart m, monthTotal rs m)) := by
  obtain ⟨x, tl, rfl⟩ := List.exists_cons_of_ne_nil h
  rfl

theorem pairwise_lt_range' : ∀ (n s : ℕ), List.Pairwise (fun a b => a < b) (List.range' s n) := by
  intro n
  induction n with
  | zero => intro s; simp
  | succ k ih =>
    intro s
    rw [List.range'_succ]
    refine List.pairwise_cons.mpr ⟨?_, ih (s + 1)⟩
    intro b hb
    have := List.mem_range'_1.mp hb
    omega

/-- C1 counterexample: with records only in 2024-01 and 2024-03, by_month still
emits a bucket for the empty month 2024-02, carrying total 0, so gap months are
present as zero-entries rather than absent. -/
theorem C1_counterexample :
    (⟨⟨2024, 2, 1⟩, (0 : ℚ)⟩ : Date × ℚ) ∈ by_month c1recs
    ∧ c1recs.map (fun r => (r.tx_date.year, r.tx_date.month)) = [(2024, 1), (2024, 3)] := by
  decide

/-- C1 amended: on a nonempty record set, by_month emits one bucket per
calendar month from the earliest occupied month through the latest occupied
month, consecutively and in ascending month order; each bucket totals the
amounts of the records falling in that month (so a gap month between occupied
months appears with total 0), and every occupied month has its bucket. -/
theorem C1_amended_by_month (rs : List Record) (h : rs ≠ []) :
    List.Chain' (fun p q : Date × ℚ => monthIdx q.1 = monthIdx p.1 + 1) (by_month rs)
    ∧ List.Pairwise (fun p q : Date × ℚ => monthIdx p.1 < monthIdx q.1) (by_month rs)
    ∧ (∀ p ∈ by_month rs, p.2 = monthTotal rs (monthIdx p.1))
    ∧ (∀ r ∈ rs, ∃ p ∈ by_month rs, monthIdx p.1 = monthIdx r.tx_date)
    ∧ (∀ p ∈ by_month rs,
        (∃ r ∈ rs, monthIdx r.tx_date ≤ monthIdx p.1)
        ∧ (∃ r ∈ rs, monthIdx p.1 ≤ monthIdx r.tx_date)) := by
  rw [by_month_eq rs h]
  refine ⟨?_, ?_, ?_, ?_, ?_⟩
  · rw [List.chain'_map]
    exact (chain'_range' _ _).imp (fun a b hab => by simp [monthIdx_monthStart, hab])
  · rw [List.pairwise_map]
    exact (pairwise_lt_range' _ _).imp (fun hab => by simpa [monthIdx_monthStart] using hab)
  · intro p hp
    obtain ⟨m, hm, rfl⟩ := List.mem_map.mp hp
    simp [monthIdx_monthStart]
  · intro r hr
    refine ⟨(monthStart (monthIdx r.tx_date), monthTotal rs (monthIdx r.tx_date)), ?_, ?_⟩
    · apply List.mem_map_of_mem
      apply List.mem_range'_1.mpr
      have h1 := minMonth_le rs r hr
      have h2 := le_maxMonth rs r hr
      omega
    · simp [monthIdx_monthStart]
  · intro p hp
    obtain ⟨m, hm, rfl⟩ := List.mem_map.mp hp
    have hm2 := List.mem_range'_1.mp hm
    constructor
    · obtain ⟨r, hr, hridx⟩ := minMonth_attained rs h
      refine ⟨r, hr, ?_⟩
      simp only [monthIdx_monthStart]
      omega
    · obtain ⟨r, hr, hridx⟩ := maxMonth_attained rs h
      refine ⟨r, hr, ?_⟩
      have h3 := minMonth_le rs r hr
      simp only [monthIdx_monthStart]
      omega

theorem C1_witness :
    List.Chain' (fun p q : Date × ℚ => monthIdx q.1 = monthIdx p.1 + 1) (by_month c1recs) :=
  (C1_amended_by_month c1recs (by decide)).1
